import Mathlib

/-!
Shallow embedding of `ManagedTopNState` (MTS) from
`src/stream/src/executor/managed_state/top_n/top_n_state.rs`.

The ordered-row codec and the state-table adapter are not part of the provided
sources; they are modelled from the specification (§4.1, §4.2, §6).  The MTS
operations themselves (`insert`, `delete`, `pop_top_element`, `top_element`,
`bottom_element`, `retain_top_n`, `scan_and_merge`, `fill_in_cache`, `flush`)
are translated line by line from the Rust source.  Panics (`unwrap` on an
empty cache, `Option::unwrap` on `delete`'s return value) are modelled by
`Option`-valued results, with `none` standing for a panic.
-/

/-- The compile-time end selector `TOP_N_TYPE` (`variants::TOP_N_MIN` or
`variants::TOP_N_MAX`), modelled as a two-variant enumeration as suggested by
the design notes (§9). -/
inductive TopNType where
  | min
  | max
deriving DecidableEq

/-- Row values are modelled by integers; the MTS only ever copies and compares
rows, so any infinite type with decidable equality is adequate. -/
abbrev Row := Int

/-- Modelled from the spec: the OrderedRow codec (§4.1) together with the
storage key layout (§6).  An `OrderedRow` is identified with an `Int` giving
its position in the total order; `encode_forward` is the identity on that
representation and bitwise inversion of the encoded bytes (which reverses the
unsigned lexicographic order) is negation.  `encodeKey E k` is the storage key
under which the state table files the row `k` inside the MTS partition:
forward bytes for `E = MIN`, reversed bytes for `E = MAX`. -/
def encodeKey : TopNType → Int → Int
  | .min, k => k
  | .max, k => -k

/-- Modelled from the spec: `OrderedRowDeserializer::deserialize`, the forward
decoder, i.e. the inverse of `encode_forward`. -/
def deserializeForward (b : Int) : Int := b

/-- Modelled from the spec: `deserialize_pk::<TOP_N_TYPE>`, the direction-aware
decoder used by `insert` and `scan_and_merge`: forward decoding for
`TOP_N_MIN`, byte inversion followed by forward decoding for `TOP_N_MAX`. -/
def deserializePk : TopNType → Int → Int
  | .min, b => b
  | .max, b => -b

/-! ### Sorted association lists

Both the in-memory cache (`BTreeMap<OrderedRow, Row>`) and the committed
contents of the state table are modelled as association lists sorted strictly
by key. -/

/-- Keys of an association list. -/
def keysA {β : Type} (l : List (Int × β)) : List Int := l.map Prod.fst

/-- Strictly-sorted-by-key predicate; this is the representation invariant of
`BTreeMap` in the model. -/
def SortedA {β : Type} (l : List (Int × β)) : Prop :=
  (keysA l).Pairwise (fun a b => a < b)

instance {β : Type} (l : List (Int × β)) : Decidable (SortedA l) := by
  unfold SortedA; infer_instance

/-- Insert (or overwrite) a binding, keeping the list sorted. -/
def insertA {β : Type} (k : Int) (v : β) : List (Int × β) → List (Int × β)
  | [] => [(k, v)]
  | (k', v') :: rest =>
    if k < k' then (k, v) :: (k', v') :: rest
    else if k = k' then (k, v) :: rest
    else (k', v') :: insertA k v rest

/-- Remove the binding for a key, if present. -/
def removeA {β : Type} (k : Int) : List (Int × β) → List (Int × β)
  | [] => []
  | (k', v') :: rest => if k = k' then rest else (k', v') :: removeA k rest

/-- Look up the binding for a key. -/
def lookupA {β : Type} (k : Int) : List (Int × β) → Option β
  | [] => none
  | (k', v') :: rest => if k = k' then some v' else lookupA k rest

/-! ### State table adapter

Modelled from the spec (§4.2): a write-through adapter that buffers pending
inserts and deletes in an in-memory delta, exposes a merged forward iterator
(delta overlaid on the committed store, tombstones skipped, newest value on
conflicts), and drains the delta atomically on `commit`.  The delta is kept as
the log of operations recorded since the last commit, applied in order
(newest wins), and keys are the encoded primary-key bytes. -/

/-- A pending operation in the delta: an upsert carrying the new row, or a
tombstone.  (`StateTable::delete` also receives the deleted row value; the
spec allows implementations to ignore it, and the merged view does.) -/
inductive RowOp where
  | ins (v : Row)
  | del
deriving DecidableEq

structure StateTable where
  committed : List (Int × Row)
  buffer : List (Int × RowOp)
deriving DecidableEq

namespace StateTable

/-- Modelled from the spec: record an upsert in the delta. -/
def insert (k : Int) (v : Row) (st : StateTable) : StateTable :=
  { st with buffer := st.buffer ++ [(k, RowOp.ins v)] }

/-- Modelled from the spec: record a tombstone in the delta. -/
def delete (k : Int) (_v : Row) (st : StateTable) : StateTable :=
  { st with buffer := st.buffer ++ [(k, RowOp.del)] }

/-- Apply one delta entry to a merged view. -/
def applyOp1 (m : List (Int × Row)) : Int × RowOp → List (Int × Row)
  | (k, .ins v) => insertA k v m
  | (k, .del) => removeA k m

/-- Apply a delta log, oldest first, to a merged view. -/
def applyBuffer (m : List (Int × Row)) (b : List (Int × RowOp)) : List (Int × Row) :=
  b.foldl applyOp1 m

/-- Modelled from the spec: the sequence of `(encoded_pk_bytes, row)` pairs
produced by the merged forward iterator `iter(epoch)`. -/
def iterList (st : StateTable) : List (Int × Row) :=
  applyBuffer st.committed st.buffer

/-- Modelled from the spec: `commit(epoch)` atomically drains the delta into
the store. -/
def commit (st : StateTable) : StateTable :=
  { committed := applyBuffer st.committed st.buffer, buffer := [] }

/-- `is_dirty`: the delta is non-empty (`top_n_state.rs:105`). -/
def isDirty (st : StateTable) : Bool :=
  !st.buffer.isEmpty

end StateTable

/-! ### The managed top-n state -/

/-- `ManagedTopNState` (`top_n_state.rs:47`): the in-memory cache `top_n`,
the state table, the running `total_count` and the retention bound
`top_n_count`.  The end selector `TOP_N_TYPE` is passed to each operation. -/
structure MTS where
  top_n : List (Int × Row)
  state_table : StateTable
  total_count : Nat
  top_n_count : Option Nat
deriving DecidableEq

namespace MTS

/-- `ManagedTopNState::new` (`top_n_state.rs:70`): the cache starts empty; the
state table is a fresh adapter over the given keyspace partition, whose
committed contents are whatever the partition holds. -/
def new (top_n_count : Option Nat) (total_count : Nat) (st : StateTable) : MTS :=
  { top_n := [], state_table := st, total_count := total_count,
    top_n_count := top_n_count }

/-- Fuel-indexed while-loop of `retain_top_n`: while the cache is larger than
the bound, evict the last entry for `TOP_N_MIN` and the first for
`TOP_N_MAX`. -/
def retainLoop (E : TopNType) (c : Nat) : Nat → List (Int × Row) → List (Int × Row)
  | 0, l => l
  | fuel + 1, l =>
    if c < l.length then
      retainLoop E c fuel (match E with | .min => l.dropLast | .max => l.tail)
    else l

/-- `retain_top_n` (`top_n_state.rs:109`). -/
def retain_top_n (E : TopNType) (s : MTS) : MTS :=
  match s.top_n_count with
  | none => s
  | some c => { s with top_n := retainLoop E c s.top_n.length s.top_n }

/-- `top_element` (`top_n_state.rs:149`). -/
def top_element (E : TopNType) (s : MTS) : Option (Int × Row) :=
  if s.total_count = 0 then none
  else match E with
    | .min => s.top_n.head?
    | .max => s.top_n.getLast?

/-- `bottom_element` (`top_n_state.rs:161`). -/
def bottom_element (E : TopNType) (s : MTS) : Option (Int × Row) :=
  if s.total_count = 0 then none
  else match E with
    | .min => s.top_n.getLast?
    | .max => s.top_n.head?

/-- `insert` (`top_n_state.rs:173`).  Returns `none` when the source would
panic (the unconditional `unwrap` of `bottom_element` on line 178). -/
def insert (E : TopNType) (key : Int) (value : Row) (_epoch : Nat) (s : MTS) :
    Option MTS :=
  let have_key_on_storage := s.top_n.length < s.total_count
  let need? : Option Bool :=
    if have_key_on_storage then
      match bottom_element E s with
      | none => none
      | some (bk, _) =>
        some (match E with
          | .min => decide (bk < key)
          | .max => decide (key < bk))
    else some false
  match need? with
  | none => none
  | some need_to_flush =>
    let pk_bytes := match E with
      | .min => encodeKey .min key
      | .max => encodeKey .max key
    let pk := deserializePk E pk_bytes
    some { s with
      state_table := StateTable.insert (encodeKey E pk) value s.state_table,
      top_n := if need_to_flush then s.top_n else insertA pk value s.top_n,
      total_count := s.total_count + 1 }

/-- Loop body shared by both arms of `scan_and_merge` (`top_n_state.rs:239`):
before each advance of the iterator, stop if the cache has reached the bound;
otherwise decode the key with the direction-aware `deserialize_pk` and insert
into the cache. -/
def scanLoop (E : TopNType) (cOpt : Option Nat) :
    List (Int × Row) → List (Int × Row) → List (Int × Row)
  | [], cache => cache
  | (b, r) :: rest, cache =>
    match cOpt with
    | some c =>
      if c ≤ cache.length then cache
      else scanLoop E cOpt rest (insertA (deserializePk E b) r cache)
    | none => scanLoop E cOpt rest (insertA (deserializePk E b) r cache)

/-- `scan_and_merge` (`top_n_state.rs:220`). -/
def scan_and_merge (E : TopNType) (_epoch : Nat) (s : MTS) : MTS :=
  { s with top_n := scanLoop E s.top_n_count (StateTable.iterList s.state_table) s.top_n }

/-- The state after the first three statements of `delete`
(`top_n_state.rs:294`–`297`): cache removal, tombstone, decrement. -/
def deleteMid (E : TopNType) (key : Int) (value : Row) (s : MTS) : MTS :=
  { s with
    top_n := removeA key s.top_n,
    state_table := StateTable.delete (encodeKey E key) value s.state_table,
    total_count := s.total_count - 1 }

/-- `delete` (`top_n_state.rs:288`): remove the key from the cache keeping the
previous value, record a tombstone, decrement `total_count`, and if the cache
drained while elements remain, refill it via `scan_and_merge` followed by
`retain_top_n`. -/
def delete (E : TopNType) (key : Int) (value : Row) (epoch : Nat) (s : MTS) :
    MTS × Option Row :=
  let prev := lookupA key s.top_n
  let s1 := deleteMid E key value s
  let s2 :=
    if s1.top_n.isEmpty ∧ 0 < s1.total_count then
      retain_top_n E (scan_and_merge E epoch s1)
    else s1
  (s2, prev)

/-- Loop of `fill_in_cache` (`top_n_state.rs:322`): decode every key with the
forward deserializer (`ordered_row_deserializer.deserialize`, line 325),
insert, and stop once the cache size equals the bound exactly. -/
def fillLoop (cOpt : Option Nat) :
    List (Int × Row) → List (Int × Row) → List (Int × Row)
  | [], cache => cache
  | (b, r) :: rest, cache =>
    let cache' := insertA (deserializeForward b) r cache
    match cOpt with
    | some c => if c = cache'.length then cache' else fillLoop cOpt rest cache'
    | none => fillLoop cOpt rest cache'

/-- `fill_in_cache` (`top_n_state.rs:312`).  Note that unlike
`scan_and_merge` the decoding is not direction-aware. -/
def fill_in_cache (_E : TopNType) (_epoch : Nat) (s : MTS) : MTS :=
  { s with top_n := fillLoop s.top_n_count (StateTable.iterList s.state_table) s.top_n }

/-- `flush` (`top_n_state.rs:366`): commit when dirty, then enforce
retention; when clean, only enforce retention. -/
def flush (E : TopNType) (_epoch : Nat) (s : MTS) : MTS :=
  if StateTable.isDirty s.state_table then
    retain_top_n E { s with state_table := StateTable.commit s.state_table }
  else retain_top_n E s

/-- `pop_top_element` (`top_n_state.rs:125`).  Returns `none` when the source
would panic (`unwrap` of the first/last cache entry, or `value.unwrap()` on
the result of `delete`). -/
def pop_top_element (E : TopNType) (epoch : Nat) (s : MTS) :
    Option (MTS × Option (Int × Row)) :=
  if s.total_count = 0 then some (s, none)
  else
    match (match E with | .min => s.top_n.head? | .max => s.top_n.getLast?) with
    | none => none
    | some (k, v) =>
      let r := delete E k v epoch s
      match r.2 with
      | none => none
      | some pv => some (r.1, some (k, pv))

end MTS

/-! ### Operation sequences

Used to state the quantified invariants (P1/P2 of §8): a sequence of public
calls applied from a freshly constructed state. -/

/-- One public mutating call with its arguments. -/
inductive Op where
  | ins (k : Int) (v : Row)
  | del (k : Int) (v : Row)
  | flushOp
deriving DecidableEq

/-- Apply one call; `none` is a panic of the underlying operation. -/
def applyOpM (E : TopNType) (s : MTS) : Op → Option MTS
  | .ins k v => MTS.insert E k v 0 s
  | .del k v => some (MTS.delete E k v 0 s).1
  | .flushOp => some (MTS.flush E 0 s)

/-- Run a sequence of calls. -/
def runOps (E : TopNType) (s : MTS) : List Op → Option MTS
  | [] => some s
  | o :: os => (applyOpM E s o).bind (fun s' => runOps E s' os)

/-- The key a call touches is live iff its encoding appears in the merged view
of the state table. -/
def liveB (E : TopNType) (s : MTS) (k : Int) : Bool :=
  decide (encodeKey E k ∈ keysA (StateTable.iterList s.state_table))

/-- Validity of one call in a state: inserts must not duplicate a live key,
deletes must target a live key and may not run on an empty multiset. -/
def validOpB (E : TopNType) (s : MTS) : Op → Bool
  | .ins k _ => !liveB E s k
  | .del k _ => liveB E s k && decide (0 < s.total_count)
  | .flushOp => true

/-- Validity of a call sequence from a given state. -/
def validFromB (E : TopNType) (s : MTS) : List Op → Bool
  | [] => true
  | o :: os =>
    validOpB E s o &&
      (match applyOpM E s o with
       | some s' => validFromB E s' os
       | none => true)

/-- The reachable-state invariant: `ReachInv E s` collects the facts that hold of
every MTS reached from a fresh construction by a valid sequence of calls
(P1 of §8, strengthened for the induction): the cache and the committed store
are sorted, the cache is no larger than `total_count` and non-empty whenever
`total_count` is positive, the merged storage view has exactly `total_count`
entries, every cached key is live in the merged view, and the cap is not
zero. -/
def ReachInv (E : TopNType) (s : MTS) : Prop :=
  SortedA s.top_n ∧
  SortedA s.state_table.committed ∧
  s.top_n.length ≤ s.total_count ∧
  (0 < s.total_count → s.top_n ≠ []) ∧
  (StateTable.iterList s.state_table).length = s.total_count ∧
  (∀ a ∈ keysA s.top_n, encodeKey E a ∈ keysA (StateTable.iterList s.state_table)) ∧
  s.top_n_count ≠ some 0

/-- The bottom test of the claim on `insert`, written from the claim's own
words: `must_flush_only` is false when `total_count = cache.len()`, and
otherwise compares the key against the far-from-`E` end of the cache. -/
def mustFlushOnly (E : TopNType) (key : Int) (s : MTS) : Bool :=
  if s.total_count = s.top_n.length then false
  else
    match (match E with | .min => s.top_n.getLast? | .max => s.top_n.head?) with
    | none => false
    | some (bk, _) =>
      match E with
      | .min => decide (bk < key)
      | .max => decide (key < bk)

/-! ## Theorems

First the codec facts, then the association-list lemma bank, then the
lemmas about the state table and the MTS operations, and finally the claim
theorems. -/

theorem deserializePk_encodeKey (E : TopNType) (k : Int) :
    deserializePk E (encodeKey E k) = k := by
  cases E <;> simp [deserializePk, encodeKey]

theorem encodeKey_injective (E : TopNType) : Function.Injective (encodeKey E) := by
  cases E <;> intro a b h <;> simpa [encodeKey] using h

@[simp] theorem keysA_nil {β : Type} : keysA ([] : List (Int × β)) = [] := rfl

@[simp] theorem keysA_cons {β : Type} (p : Int × β) (l : List (Int × β)) :
    keysA (p :: l) = p.1 :: keysA l := rfl

theorem sortedA_nil {β : Type} : SortedA ([] : List (Int × β)) := List.Pairwise.nil

theorem sortedA_cons {β : Type} {p : Int × β} {l : List (Int × β)} :
    SortedA (p :: l) ↔ (∀ a ∈ keysA l, p.1 < a) ∧ SortedA l := by
  simp [SortedA, List.pairwise_cons]

theorem sortedA_of_cons {β : Type} {p : Int × β} {l : List (Int × β)}
    (h : SortedA (p :: l)) : SortedA l := (sortedA_cons.mp h).2

theorem mem_keys_insertA {β : Type} (k a : Int) (v : β) (l : List (Int × β)) :
    a ∈ keysA (insertA k v l) ↔ a = k ∨ a ∈ keysA l := by
  induction l with
  | nil => simp [insertA]
  | cons hd tl ih =>
    obtain ⟨k', v'⟩ := hd
    simp only [insertA]
    split_ifs with h1 h2
    · simp
    · subst h2; simp
    · simp only [keysA_cons, List.mem_cons, ih]; tauto

theorem sorted_insertA {β : Type} (k : Int) (v : β) {l : List (Int × β)}
    (h : SortedA l) : SortedA (insertA k v l) := by
  induction l with
  | nil => simp [insertA, SortedA]
  | cons hd tl ih =>
    obtain ⟨k', v'⟩ := hd
    rw [sortedA_cons] at h
    simp only [insertA]
    split_ifs with h1 h2
    · rw [sortedA_cons]
      refine ⟨?_, sortedA_cons.mpr h⟩
      intro a ha
      simp only [keysA_cons, List.mem_cons] at ha
      rcases ha with rfl | ha
      · exact h1
      · exact h1.trans (h.1 a ha)
    · subst h2
      exact sortedA_cons.mpr ⟨h.1, h.2⟩
    · rw [sortedA_cons]
      refine ⟨?_, ih h.2⟩
      intro a ha
      rcases (mem_keys_insertA k a v tl).mp ha with rfl | ha
      · omega
      · exact h.1 a ha

theorem insertA_ne_nil {β : Type} (k : Int) (v : β) (l : List (Int × β)) :
    insertA k v l ≠ [] := by
  cases l with
  | nil => simp [insertA]
  | cons hd tl =>
    obtain ⟨k', v'⟩ := hd
    simp only [insertA]
    split_ifs <;> simp

theorem length_insertA_le {β : Type} (k : Int) (v : β) (l : List (Int × β)) :
    (insertA k v l).length ≤ l.length + 1 := by
  induction l with
  | nil => simp [insertA]
  | cons hd tl ih =>
    obtain ⟨k', v'⟩ := hd
    simp only [insertA]
    split_ifs <;> simp <;> omega

theorem length_insertA_not_mem {β : Type} {k : Int} (v : β) {l : List (Int × β)}
    (h : k ∉ keysA l) : (insertA k v l).length = l.length + 1 := by
  induction l with
  | nil => simp [insertA]
  | cons hd tl ih =>
    obtain ⟨k', v'⟩ := hd
    simp only [keysA_cons, List.mem_cons] at h
    push_neg at h
    simp only [insertA]
    split_ifs with h1 h2
    · simp
    · exact absurd h2 h.1
    · simp [ih h.2]

theorem lookupA_insertA_self {β : Type} (k : Int) (v : β) (l : List (Int × β)) :
    lookupA k (insertA k v l) = some v := by
  induction l with
  | nil => simp [insertA, lookupA]
  | cons hd tl ih =>
    obtain ⟨k', v'⟩ := hd
    simp only [insertA]
    split_ifs with h1 h2
    · simp [lookupA]
    · simp [lookupA]
    · have : k ≠ k' := by omega
      simp [lookupA, this, ih]

theorem lookupA_insertA_ne {β : Type} {k a : Int} (v : β) (l : List (Int × β))
    (h : a ≠ k) : lookupA a (insertA k v l) = lookupA a l := by
  induction l with
  | nil => simp [insertA, lookupA, h]
  | cons hd tl ih =>
    obtain ⟨k', v'⟩ := hd
    simp only [insertA]
    split_ifs with h1 h2
    · simp [lookupA, h]
    · subst h2; simp [lookupA, h]
    · by_cases ha : a = k'
      · simp [lookupA, ha]
      · simp [lookupA, ha, ih]

theorem mem_keys_removeA_subset {β : Type} (k a : Int) (l : List (Int × β)) :
    a ∈ keysA (removeA k l) → a ∈ keysA l := by
  induction l with
  | nil => simp [removeA]
  | cons hd tl ih =>
    obtain ⟨k', v'⟩ := hd
    simp only [removeA]
    split_ifs with h1
    · intro h; simp [h]
    · simp only [keysA_cons, List.mem_cons]
      rintro (rfl | h)
      · left; rfl
      · right; exact ih h

theorem mem_keys_removeA_of {β : Type} {k a : Int} {l : List (Int × β)}
    (h : a ∈ keysA l) (hne : a ≠ k) : a ∈ keysA (removeA k l) := by
  induction l with
  | nil => simp at h
  | cons hd tl ih =>
    obtain ⟨k', v'⟩ := hd
    simp only [keysA_cons, List.mem_cons] at h
    simp only [removeA]
    split_ifs with h1
    · subst h1
      rcases h with rfl | h
      · exact absurd rfl hne
      · exact h
    · rcases h with rfl | h
      · simp
      · simp [ih h]

theorem sorted_removeA {β : Type} (k : Int) {l : List (Int × β)}
    (h : SortedA l) : SortedA (removeA k l) := by
  induction l with
  | nil => simpa [removeA] using h
  | cons hd tl ih =>
    obtain ⟨k', v'⟩ := hd
    rw [sortedA_cons] at h
    simp only [removeA]
    split_ifs with h1
    · exact h.2
    · rw [sortedA_cons]
      exact ⟨fun a ha => h.1 a (mem_keys_removeA_subset k a tl ha), ih h.2⟩

theorem removeA_not_mem {β : Type} {k : Int} {l : List (Int × β)}
    (h : k ∉ keysA l) : removeA k l = l := by
  induction l with
  | nil => simp [removeA]
  | cons hd tl ih =>
    obtain ⟨k', v'⟩ := hd
    simp only [keysA_cons, List.mem_cons] at h
    push_neg at h
    simp [removeA, h.1, ih h.2]

theorem length_removeA_mem {β : Type} {k : Int} {l : List (Int × β)}
    (h : k ∈ keysA l) : (removeA k l).length + 1 = l.length := by
  induction l with
  | nil => simp at h
  | cons hd tl ih =>
    obtain ⟨k', v'⟩ := hd
    simp only [keysA_cons, List.mem_cons] at h
    simp only [removeA]
    split_ifs with h1
    · simp
    · have : k ∈ keysA tl := by
        rcases h with rfl | h
        · exact absurd rfl h1
        · exact h
      simp [← ih this]

theorem length_removeA_le {β : Type} (k : Int) (l : List (Int × β)) :
    (removeA k l).length ≤ l.length := by
  induction l with
  | nil => simp [removeA]
  | cons hd tl ih =>
    obtain ⟨k', v'⟩ := hd
    simp only [removeA]
    split_ifs <;> simp <;> omega

theorem lookupA_eq_none_of_not_mem {β : Type} {k : Int} {l : List (Int × β)}
    (h : k ∉ keysA l) : lookupA k l = none := by
  induction l with
  | nil => simp [lookupA]
  | cons hd tl ih =>
    obtain ⟨k', v'⟩ := hd
    simp only [keysA_cons, List.mem_cons] at h
    push_neg at h
    simp [lookupA, h.1, ih h.2]

theorem lookupA_head {β : Type} {k : Int} {v : β} {l : List (Int × β)}
    (h : l.head? = some (k, v)) : lookupA k l = some v := by
  cases l with
  | nil => simp at h
  | cons hd tl =>
    simp only [List.head?_cons, Option.some.injEq] at h
    subst h
    simp [lookupA]

theorem mem_of_getLast? {β : Type} {l : List β} {p : β}
    (h : l.getLast? = some p) : p ∈ l := by
  induction l with
  | nil => simp at h
  | cons hd tl ih =>
    cases tl with
    | nil =>
      simp only [List.getLast?_singleton, Option.some.injEq] at h
      simp [h]
    | cons hd' tl' =>
      rw [List.getLast?_cons_cons] at h
      exact List.mem_cons_of_mem hd (ih h)

theorem lookupA_getLast {β : Type} {k : Int} {v : β} {l : List (Int × β)}
    (hs : SortedA l) (h : l.getLast? = some (k, v)) : lookupA k l = some v := by
  induction l with
  | nil => simp at h
  | cons hd tl ih =>
    obtain ⟨k', v'⟩ := hd
    cases tl with
    | nil =>
      simp only [List.getLast?_singleton, Option.some.injEq, Prod.mk.injEq] at h
      simp [lookupA, h.1.symm, h.2]
    | cons hd' tl' =>
      rw [List.getLast?_cons_cons] at h
      rw [sortedA_cons] at hs
      have hmem : (k, v) ∈ hd' :: tl' := mem_of_getLast? h
      have hkmem : k ∈ keysA (hd' :: tl') := by
        simp only [keysA, List.mem_map]
        exact ⟨(k, v), hmem, rfl⟩
      have hne : k ≠ k' := by
        have := hs.1 k hkmem
        omega
      have hrec := ih hs.2 h
      simp only [lookupA] at hrec ⊢
      rw [if_neg hne]
      exact hrec

theorem nodup_keysA {β : Type} {l : List (Int × β)} (h : SortedA l) :
    (keysA l).Nodup := h.imp (fun hlt => ne_of_lt hlt)

/-- Counting argument: a sorted cache whose keys all encode into a
duplicate-free list `L`, avoiding a distinguished member `ek` of `L`, has
strictly fewer entries than `L`. -/
theorem length_lt_of_keys_avoid {β : Type} {E : TopNType} {cache : List (Int × β)}
    {L : List Int} {ek : Int} (hs : SortedA cache)
    (hsub : ∀ a ∈ keysA cache, encodeKey E a ∈ L) (hnd : L.Nodup) (hek : ek ∈ L)
    (havoid : ∀ a ∈ keysA cache, encodeKey E a ≠ ek) :
    cache.length + 1 ≤ L.length := by
  have himg_nodup : ((keysA cache).map (encodeKey E)).Nodup :=
    (nodup_keysA hs).map (encodeKey_injective E)
  have himg_sub : (keysA cache).map (encodeKey E) ⊆ L.erase ek := by
    intro x hx
    simp only [List.mem_map] at hx
    obtain ⟨a, ha, rfl⟩ := hx
    exact (List.mem_erase_of_ne (havoid a ha)).mpr (hsub a ha)
  have hsp : List.Subperm ((keysA cache).map (encodeKey E)) (L.erase ek) :=
    List.subperm_of_subset himg_nodup himg_sub
  have hlen := hsp.length_le
  have herase : (L.erase ek).length = L.length - 1 := List.length_erase_of_mem hek
  have hL1 : 1 ≤ L.length := List.length_pos.mpr (List.ne_nil_of_mem hek)
  have : ((keysA cache).map (encodeKey E)).length = cache.length := by
    simp [keysA]
  omega

/-! ### State table lemmas -/

namespace StateTable

theorem applyBuffer_append (m : List (Int × Row)) (b1 b2 : List (Int × RowOp)) :
    applyBuffer m (b1 ++ b2) = applyBuffer (applyBuffer m b1) b2 := by
  unfold applyBuffer
  rw [List.foldl_append]

theorem iterList_insert (k : Int) (v : Row) (st : StateTable) :
    iterList (StateTable.insert k v st) = insertA k v (iterList st) := by
  simp [iterList, StateTable.insert, applyBuffer, List.foldl_append, applyOp1]

theorem iterList_delete (k : Int) (v : Row) (st : StateTable) :
    iterList (StateTable.delete k v st) = removeA k (iterList st) := by
  simp [iterList, StateTable.delete, applyBuffer, List.foldl_append, applyOp1]

theorem iterList_commit (st : StateTable) : iterList (commit st) = iterList st := rfl

theorem isDirty_commit (st : StateTable) : isDirty (commit st) = false := rfl

theorem sorted_applyOp1 {m : List (Int × Row)} (h : SortedA m) (p : Int × RowOp) :
    SortedA (applyOp1 m p) := by
  obtain ⟨k, op⟩ := p
  cases op with
  | ins v => exact sorted_insertA k v h
  | del => exact sorted_removeA k h

theorem sorted_applyBuffer {m : List (Int × Row)} (b : List (Int × RowOp))
    (h : SortedA m) : SortedA (applyBuffer m b) := by
  induction b generalizing m with
  | nil => exact h
  | cons hd tl ih => exact ih (sorted_applyOp1 h hd)

theorem sorted_iterList {st : StateTable} (h : SortedA st.committed) :
    SortedA (iterList st) := sorted_applyBuffer st.buffer h

end StateTable

/-! ### Lemmas about the MTS operations -/

namespace MTS

theorem retainLoop_min (c : Nat) :
    ∀ (fuel : Nat) (l : List (Int × Row)), l.length ≤ fuel →
      retainLoop .min c fuel l = l.take c := by
  intro fuel
  induction fuel with
  | zero =>
    intro l hl
    have : l = [] := List.length_eq_zero.mp (by omega)
    simp [this, retainLoop]
  | succ n ih =>
    intro l hl
    simp only [retainLoop]
    split_ifs with h
    · have hlen : l.dropLast.length ≤ n := by
        simp only [List.length_dropLast]; omega
      rw [ih l.dropLast hlen, List.dropLast_eq_take, List.take_take]
      congr 1
      omega
    · rw [List.take_of_length_le (by omega)]

theorem retainLoop_max (c : Nat) :
    ∀ (fuel : Nat) (l : List (Int × Row)), l.length ≤ fuel →
      retainLoop .max c fuel l = l.drop (l.length - c) := by
  intro fuel
  induction fuel with
  | zero =>
    intro l hl
    have : l = [] := List.length_eq_zero.mp (by omega)
    simp [this, retainLoop]
  | succ n ih =>
    intro l hl
    simp only [retainLoop]
    split_ifs with h
    · have hlen : l.tail.length ≤ n := by
        simp only [List.length_tail]; omega
      rw [ih l.tail hlen, ← List.drop_one, List.drop_drop, List.length_drop]
      congr 1
      omega
    · have : l.length - c = 0 := by omega
      rw [this, List.drop_zero]

/-- The retention loop trims the cache to the `E`-near end: the first `c`
entries for `MIN`, the last `c` entries for `MAX`. -/
theorem retain_top_n_eq (E : TopNType) (s : MTS) :
    retain_top_n E s =
      { s with top_n :=
          match s.top_n_count with
          | none => s.top_n
          | some c =>
            match E with
            | .min => s.top_n.take c
            | .max => s.top_n.drop (s.top_n.length - c) } := by
  obtain ⟨t, st, tc, K⟩ := s
  cases K with
  | none => simp [retain_top_n]
  | some c =>
    cases E with
    | min => simp [retain_top_n, retainLoop_min c t.length t le_rfl]
    | max => simp [retain_top_n, retainLoop_max c t.length t le_rfl]

theorem retain_state_table (E : TopNType) (s : MTS) :
    (retain_top_n E s).state_table = s.state_table := by
  rw [retain_top_n_eq]

theorem retain_total_count (E : TopNType) (s : MTS) :
    (retain_top_n E s).total_count = s.total_count := by
  rw [retain_top_n_eq]

theorem retain_top_n_count (E : TopNType) (s : MTS) :
    (retain_top_n E s).top_n_count = s.top_n_count := by
  rw [retain_top_n_eq]

theorem retain_length_le_cap {E : TopNType} {s : MTS} {c : Nat}
    (h : s.top_n_count = some c) : (retain_top_n E s).top_n.length ≤ c := by
  rw [retain_top_n_eq]
  cases E <;> simp [h] <;> omega

theorem retain_length_le (E : TopNType) (s : MTS) :
    (retain_top_n E s).top_n.length ≤ s.top_n.length := by
  rw [retain_top_n_eq]
  cases hK : s.top_n_count with
  | none => simp
  | some c => cases E <;> simp <;> omega

theorem retain_ne_nil {E : TopNType} {s : MTS} {c : Nat}
    (hK : s.top_n_count = some c) (hc : 1 ≤ c) (h : s.top_n ≠ []) :
    (retain_top_n E s).top_n ≠ [] := by
  have hpos : 0 < s.top_n.length := List.length_pos.mpr h
  rw [retain_top_n_eq]
  cases E <;>
    · simp only [hK]
      rw [← List.length_pos]
      simp
      omega

theorem retain_ne_nil_of_none {E : TopNType} {s : MTS}
    (hK : s.top_n_count = none) (h : s.top_n ≠ []) :
    (retain_top_n E s).top_n ≠ [] := by
  rw [retain_top_n_eq]
  simpa [hK] using h

theorem retain_top_n_sublist (E : TopNType) (s : MTS) :
    (retain_top_n E s).top_n.Sublist s.top_n := by
  rw [retain_top_n_eq]
  cases hK : s.top_n_count with
  | none => simp
  | some c => cases E <;> simp [List.take_sublist, List.drop_sublist]

theorem retain_sorted {E : TopNType} {s : MTS} (h : SortedA s.top_n) :
    SortedA (retain_top_n E s).top_n :=
  List.Pairwise.sublist ((retain_top_n_sublist E s).map Prod.fst) h

theorem retain_keys_subset (E : TopNType) (s : MTS) :
    ∀ a ∈ keysA (retain_top_n E s).top_n, a ∈ keysA s.top_n := fun _ ha =>
  ((retain_top_n_sublist E s).map Prod.fst).subset ha

theorem scanLoop_length_le (E : TopNType) (cOpt : Option Nat) :
    ∀ (entries cache : List (Int × Row)),
      (scanLoop E cOpt entries cache).length ≤ cache.length + entries.length := by
  intro entries
  induction entries with
  | nil => intro cache; simp [scanLoop]
  | cons hd tl ih =>
    intro cache
    obtain ⟨b, r⟩ := hd
    have hstep := length_insertA_le (deserializePk E b) r cache
    cases cOpt with
    | some c =>
      simp only [scanLoop]
      split_ifs with h
      · simp only [List.length_cons]; omega
      · have := ih (insertA (deserializePk E b) r cache)
        simp only [List.length_cons]
        omega
    | none =>
      simp only [scanLoop]
      have := ih (insertA (deserializePk E b) r cache)
      simp only [List.length_cons]
      omega

theorem scanLoop_ne_nil (E : TopNType) (cOpt : Option Nat) :
    ∀ (entries cache : List (Int × Row)), cache ≠ [] →
      scanLoop E cOpt entries cache ≠ [] := by
  intro entries
  induction entries with
  | nil => intro cache h; simpa [scanLoop] using h
  | cons hd tl ih =>
    intro cache h
    obtain ⟨b, r⟩ := hd
    cases cOpt with
    | some c =>
      simp only [scanLoop]
      split_ifs with hc
      · exact h
      · exact ih _ (insertA_ne_nil _ _ _)
    | none =>
      simp only [scanLoop]
      exact ih _ (insertA_ne_nil _ _ _)

theorem scanLoop_ne_nil_of_entries {E : TopNType} {cOpt : Option Nat}
    {entries : List (Int × Row)} (hent : entries ≠ [])
    (hc : ∀ c, cOpt = some c → 1 ≤ c) :
    scanLoop E cOpt entries [] ≠ [] := by
  cases entries with
  | nil => exact absurd rfl hent
  | cons hd tl =>
    obtain ⟨b, r⟩ := hd
    cases hco : cOpt with
    | some c =>
      have := hc c hco
      simp only [scanLoop]
      have hne : ¬ c ≤ ([] : List (Int × Row)).length := by simp; omega
      rw [if_neg hne]
      exact scanLoop_ne_nil E _ _ _ (insertA_ne_nil _ _ _)
    | none =>
      simp only [scanLoop]
      exact scanLoop_ne_nil E _ _ _ (insertA_ne_nil _ _ _)

theorem scanLoop_le_cap (E : TopNType) {c : Nat} :
    ∀ (entries cache : List (Int × Row)), cache.length ≤ c →
      (scanLoop E (some c) entries cache).length ≤ c := by
  intro entries
  induction entries with
  | nil => intro cache h; simpa [scanLoop] using h
  | cons hd tl ih =>
    intro cache h
    obtain ⟨b, r⟩ := hd
    simp only [scanLoop]
    split_ifs with hc
    · exact h
    · have hlt : cache.length < c := by omega
      have := length_insertA_le (deserializePk E b) r cache
      exact ih _ (by omega)

theorem scanLoop_sorted (E : TopNType) (cOpt : Option Nat) :
    ∀ (entries cache : List (Int × Row)), SortedA cache →
      SortedA (scanLoop E cOpt entries cache) := by
  intro entries
  induction entries with
  | nil => intro cache h; simpa [scanLoop] using h
  | cons hd tl ih =>
    intro cache h
    obtain ⟨b, r⟩ := hd
    cases cOpt with
    | some c =>
      simp only [scanLoop]
      split_ifs with hc
      · exact h
      · exact ih _ (sorted_insertA _ _ h)
    | none =>
      simp only [scanLoop]
      exact ih _ (sorted_insertA _ _ h)

theorem scanLoop_keys (E : TopNType) (cOpt : Option Nat) (P : Int → Prop) :
    ∀ (entries cache : List (Int × Row)),
      (∀ p ∈ entries, P (deserializePk E p.1)) →
      (∀ a ∈ keysA cache, P a) →
      ∀ a ∈ keysA (scanLoop E cOpt entries cache), P a := by
  intro entries
  induction entries with
  | nil => intro cache _ hcache; simpa [scanLoop] using hcache
  | cons hd tl ih =>
    intro cache hent hcache
    obtain ⟨b, r⟩ := hd
    have hcache' : ∀ a ∈ keysA (insertA (deserializePk E b) r cache), P a := by
      intro a ha
      rcases (mem_keys_insertA _ a r cache).mp ha with rfl | ha
      · exact hent (b, r) (List.mem_cons_self _ _)
      · exact hcache a ha
    have hent' : ∀ p ∈ tl, P (deserializePk E p.1) := fun p hp =>
      hent p (List.mem_cons_of_mem _ hp)
    cases cOpt with
    | some c =>
      simp only [scanLoop]
      split_ifs with hc
      · exact hcache
      · exact ih _ hent' hcache'
    | none =>
      simp only [scanLoop]
      exact ih _ hent' hcache'

theorem fillLoop_le_cap {c : Nat} :
    ∀ (entries cache : List (Int × Row)), cache.length < c →
      (fillLoop (some c) entries cache).length ≤ c := by
  intro entries
  induction entries with
  | nil => intro cache h; simp [fillLoop]; omega
  | cons hd tl ih =>
    intro cache h
    obtain ⟨b, r⟩ := hd
    simp only [fillLoop]
    have hle := length_insertA_le (deserializeForward b) r cache
    split_ifs with hc
    · omega
    · exact ih _ (by omega)

theorem encodeKey_deserializePk (E : TopNType) (b : Int) :
    encodeKey E (deserializePk E b) = b := by
  cases E <;> simp [deserializePk, encodeKey]

theorem bottom_element_of_pos {E : TopNType} {s : MTS} (h : s.total_count ≠ 0) :
    bottom_element E s =
      (match E with | .min => s.top_n.getLast? | .max => s.top_n.head?) := by
  simp [bottom_element, h]

theorem bottom_element_isSome {E : TopNType} {s : MTS} (hpos : s.total_count ≠ 0)
    (hne : s.top_n ≠ []) : ∃ p, bottom_element E s = some p := by
  rw [bottom_element_of_pos hpos]
  cases E with
  | min =>
    simp only []
    cases hl : s.top_n.getLast? with
    | none => exact absurd (List.getLast?_eq_none_iff.mp hl) hne
    | some p => exact ⟨p, rfl⟩
  | max =>
    simp only []
    cases hl : s.top_n.head? with
    | none => exact absurd (List.head?_eq_none_iff.mp hl) hne
    | some p => exact ⟨p, rfl⟩

/-- `insert` when the cache covers the whole multiset: nothing must be
flushed-only, the pair goes into the cache. -/
theorem insert_of_not_storage {E : TopNType} {s : MTS} (k : Int) (v : Row)
    (e : Nat) (h : ¬ s.top_n.length < s.total_count) :
    insert E k v e s =
      some { s with
        state_table := StateTable.insert (encodeKey E k) v s.state_table,
        top_n := insertA k v s.top_n,
        total_count := s.total_count + 1 } := by
  cases E <;> simp [insert, h, deserializePk, encodeKey]

/-- `insert` when keys exist only on storage and the cache is non-empty:
the key is compared against the bottom element. -/
theorem insert_of_storage {E : TopNType} {s : MTS} (k : Int) (v : Row) (e : Nat)
    {bk : Int} {bv : Row} (h : s.top_n.length < s.total_count)
    (hb : bottom_element E s = some (bk, bv)) :
    insert E k v e s =
      some { s with
        state_table := StateTable.insert (encodeKey E k) v s.state_table,
        top_n :=
          if (match E with | .min => decide (bk < k) | .max => decide (k < bk)) then
            s.top_n
          else insertA k v s.top_n,
        total_count := s.total_count + 1 } := by
  cases E <;> simp [insert, h, hb, deserializePk, encodeKey]

/-- `insert` when keys exist only on storage but the cache is empty: the
source panics on `bottom_element().unwrap()`. -/
theorem insert_of_storage_nil {E : TopNType} {s : MTS} (k : Int) (v : Row)
    (e : Nat) (h : s.top_n.length < s.total_count)
    (hb : bottom_element E s = none) : insert E k v e s = none := by
  simp [insert, h, hb]

end MTS

theorem keysA_length {β : Type} (l : List (Int × β)) : (keysA l).length = l.length := by
  simp [keysA]

theorem not_mem_keys_removeA_self {β : Type} {k : Int} {l : List (Int × β)}
    (hs : SortedA l) : k ∉ keysA (removeA k l) := by
  induction l with
  | nil => simp [removeA]
  | cons hd tl ih =>
    obtain ⟨k', v'⟩ := hd
    rw [sortedA_cons] at hs
    simp only [removeA]
    split_ifs with h1
    · subst h1
      intro hmem
      have := hs.1 k hmem
      omega
    · simp only [keysA_cons, List.mem_cons]
      push_neg
      exact ⟨h1, ih hs.2⟩


/-! ### Preservation of the reachable-state invariant -/

theorem reachInv_insert {E : TopNType} {s : MTS} (hinv : ReachInv E s) (k : Int)
    (v : Row)
    (hvalid : encodeKey E k ∉ keysA (StateTable.iterList s.state_table)) :
    ∃ s', MTS.insert E k v 0 s = some s' ∧ ReachInv E s' := by
  obtain ⟨hstop, hscom, hlen, hne, hcnt, hlive, hK⟩ := hinv
  have hcount :
      (StateTable.iterList
        (StateTable.insert (encodeKey E k) v s.state_table)).length =
        s.total_count + 1 := by
    rw [StateTable.iterList_insert, length_insertA_not_mem v hvalid, hcnt]
  by_cases hst : s.top_n.length < s.total_count
  · have hpos : s.total_count ≠ 0 := by omega
    have hne' : s.top_n ≠ [] := hne (by omega)
    obtain ⟨⟨bk, bv⟩, hb⟩ := MTS.bottom_element_isSome hpos hne'
    rw [MTS.insert_of_storage k v 0 hst hb]
    refine ⟨_, rfl, ?_, ?_, ?_, ?_, ?_, ?_, ?_⟩
    · split_ifs with hneed
      · exact hstop
      · exact sorted_insertA k v hstop
    · exact hscom
    · split_ifs with hneed
      · simp only []
        omega
      · have := length_insertA_le k v s.top_n
        simp only []
        omega
    · intro _
      split_ifs with hneed
      · exact hne'
      · exact insertA_ne_nil k v s.top_n
    · exact hcount
    · intro a ha
      rw [StateTable.iterList_insert]
      rw [mem_keys_insertA]
      split_ifs at ha with hneed
      · exact Or.inr (hlive a ha)
      · rcases (mem_keys_insertA k a v s.top_n).mp ha with rfl | ha
        · exact Or.inl rfl
        · exact Or.inr (hlive a ha)
    · exact hK
  · rw [MTS.insert_of_not_storage k v 0 hst]
    refine ⟨_, rfl, ?_, ?_, ?_, ?_, ?_, ?_, ?_⟩
    · exact sorted_insertA k v hstop
    · exact hscom
    · have := length_insertA_le k v s.top_n
      simp only []
      omega
    · intro _
      exact insertA_ne_nil k v s.top_n
    · exact hcount
    · intro a ha
      rw [StateTable.iterList_insert, mem_keys_insertA]
      rcases (mem_keys_insertA k a v s.top_n).mp ha with rfl | ha
      · exact Or.inl rfl
      · exact Or.inr (hlive a ha)
    · exact hK

theorem reachInv_delete {E : TopNType} {s : MTS} (hinv : ReachInv E s) (k : Int)
    (v : Row)
    (hlivek : encodeKey E k ∈ keysA (StateTable.iterList s.state_table))
    (hpos : 0 < s.total_count) :
    ReachInv E (MTS.delete E k v 0 s).1 := by
  obtain ⟨hstop, hscom, hlen, hne, hcnt, hlive, hK⟩ := hinv
  have hsorted_iter : SortedA (StateTable.iterList s.state_table) :=
    StateTable.sorted_iterList hscom
  have hmid_top : (MTS.deleteMid E k v s).top_n = removeA k s.top_n := rfl
  have hmid_cnt : (MTS.deleteMid E k v s).total_count = s.total_count - 1 := rfl
  have hmid_K : (MTS.deleteMid E k v s).top_n_count = s.top_n_count := rfl
  have hmid_iter : StateTable.iterList (MTS.deleteMid E k v s).state_table =
      removeA (encodeKey E k) (StateTable.iterList s.state_table) :=
    StateTable.iterList_delete (encodeKey E k) v s.state_table
  have hmid_iter_len :
      (StateTable.iterList (MTS.deleteMid E k v s).state_table).length =
        s.total_count - 1 := by
    rw [hmid_iter]
    have := length_removeA_mem hlivek
    omega
  have hmid_sorted_top : SortedA (MTS.deleteMid E k v s).top_n :=
    sorted_removeA k hstop
  have hmid_sorted_iter :
      SortedA (StateTable.iterList (MTS.deleteMid E k v s).state_table) := by
    rw [hmid_iter]
    exact sorted_removeA _ hsorted_iter
  have hmid_len : (MTS.deleteMid E k v s).top_n.length ≤ s.total_count - 1 := by
    rw [hmid_top]
    by_cases hkc : k ∈ keysA s.top_n
    · have h1 := length_removeA_mem hkc
      omega
    · rw [removeA_not_mem hkc]
      have havoid : ∀ a ∈ keysA s.top_n, encodeKey E a ≠ encodeKey E k := by
        intro a ha h
        exact hkc (encodeKey_injective E h ▸ ha)
      have hcount := length_lt_of_keys_avoid hstop hlive
        (nodup_keysA hsorted_iter) hlivek havoid
      have hkl := keysA_length (StateTable.iterList s.state_table)
      omega
  have hmid_live : ∀ a ∈ keysA (MTS.deleteMid E k v s).top_n,
      encodeKey E a ∈
        keysA (StateTable.iterList (MTS.deleteMid E k v s).state_table) := by
    intro a ha
    rw [hmid_top] at ha
    have hamem := mem_keys_removeA_subset k a _ ha
    have hak : a ≠ k := by
      intro h
      exact not_mem_keys_removeA_self hstop (h ▸ ha)
    rw [hmid_iter]
    exact mem_keys_removeA_of (hlive a hamem)
      (fun hh => hak (encodeKey_injective E hh))
  by_cases hcond : (MTS.deleteMid E k v s).top_n.isEmpty ∧
      0 < (MTS.deleteMid E k v s).total_count
  · have hdel : (MTS.delete E k v 0 s).1 =
        MTS.retain_top_n E (MTS.scan_and_merge E 0 (MTS.deleteMid E k v s)) := by
      simp [MTS.delete, hcond]
    rw [hdel]
    have hmid_empty : (MTS.deleteMid E k v s).top_n = [] := by
      have := hcond.1
      simpa [List.isEmpty_iff] using this
    have hpos1 : 0 < s.total_count - 1 := by
      have := hcond.2
      rwa [hmid_cnt] at this
    have hentries_ne :
        StateTable.iterList (MTS.deleteMid E k v s).state_table ≠ [] := by
      intro h
      rw [h] at hmid_iter_len
      simp at hmid_iter_len
      omega
    have hKc : ∀ c, (MTS.scan_and_merge E 0 (MTS.deleteMid E k v s)).top_n_count =
        some c → 1 ≤ c := by
      intro c hc
      have hc' : s.top_n_count = some c := hc
      rcases Nat.eq_zero_or_pos c with rfl | h
      · exact absurd hc' hK
      · exact h
    have hs3top : (MTS.scan_and_merge E 0 (MTS.deleteMid E k v s)).top_n =
        MTS.scanLoop E (MTS.deleteMid E k v s).top_n_count
          (StateTable.iterList (MTS.deleteMid E k v s).state_table)
          (MTS.deleteMid E k v s).top_n := rfl
    refine ⟨?_, ?_, ?_, ?_, ?_, ?_, ?_⟩
    · exact MTS.retain_sorted
        (by rw [hs3top]; exact MTS.scanLoop_sorted E _ _ _ hmid_sorted_top)
    · rw [MTS.retain_state_table]
      exact hscom
    · have h1 := MTS.retain_length_le E (MTS.scan_and_merge E 0 (MTS.deleteMid E k v s))
      rw [hs3top, hmid_empty] at h1
      have h2 := MTS.scanLoop_length_le E (MTS.deleteMid E k v s).top_n_count
        (StateTable.iterList (MTS.deleteMid E k v s).state_table) []
      simp only [List.length_nil, Nat.zero_add] at h2
      rw [hmid_iter_len] at h2
      rw [MTS.retain_total_count]
      have hcnt3 : (MTS.scan_and_merge E 0 (MTS.deleteMid E k v s)).total_count =
          s.total_count - 1 := hmid_cnt
      rw [hcnt3]
      omega
    · intro _
      have hs3ne : (MTS.scan_and_merge E 0 (MTS.deleteMid E k v s)).top_n ≠ [] := by
        rw [hs3top, hmid_empty]
        exact MTS.scanLoop_ne_nil_of_entries hentries_ne (fun c hc => hKc c hc)
      cases hKs : (MTS.scan_and_merge E 0 (MTS.deleteMid E k v s)).top_n_count with
      | none => exact MTS.retain_ne_nil_of_none hKs hs3ne
      | some c => exact MTS.retain_ne_nil hKs (hKc c hKs) hs3ne
    · rw [MTS.retain_state_table, MTS.retain_total_count]
      exact hmid_iter_len
    · intro a ha
      rw [MTS.retain_state_table]
      have ha3 := MTS.retain_keys_subset E _ a ha
      rw [hs3top] at ha3
      exact MTS.scanLoop_keys E _ _ _ _
        (fun p hp => by
          rw [MTS.encodeKey_deserializePk]
          exact List.mem_map_of_mem Prod.fst hp)
        hmid_live a ha3
    · rw [MTS.retain_top_n_count]
      exact hK
  · have hdel : (MTS.delete E k v 0 s).1 = MTS.deleteMid E k v s := by
      simp only [MTS.delete]
      rw [if_neg hcond]
    rw [hdel]
    refine ⟨hmid_sorted_top, hscom, ?_, ?_, hmid_iter_len, hmid_live, hK⟩
    · rw [hmid_cnt]
      exact hmid_len
    · intro hpos1
      have hnemp : ¬ (MTS.deleteMid E k v s).top_n.isEmpty := by
        intro hemp
        exact hcond ⟨hemp, hpos1⟩
      simpa [List.isEmpty_iff] using hnemp

theorem reachInv_flush {E : TopNType} {s : MTS} (hinv : ReachInv E s) :
    ReachInv E (MTS.flush E 0 s) := by
  obtain ⟨hstop, hscom, hlen, hne, hcnt, hlive, hK⟩ := hinv
  have hretain : ∀ s2 : MTS, s2.top_n = s.top_n → s2.total_count = s.total_count →
      s2.top_n_count = s.top_n_count → SortedA s2.state_table.committed →
      StateTable.iterList s2.state_table = StateTable.iterList s.state_table →
      ReachInv E (MTS.retain_top_n E s2) := by
    intro s2 h1 h2 h3 h4 h5
    refine ⟨?_, ?_, ?_, ?_, ?_, ?_, ?_⟩
    · exact MTS.retain_sorted (h1 ▸ hstop)
    · rw [MTS.retain_state_table]
      exact h4
    · have hr := MTS.retain_length_le E s2
      rw [h1] at hr
      rw [MTS.retain_total_count, h2]
      omega
    · intro hp
      rw [MTS.retain_total_count, h2] at hp
      have hne2 : s2.top_n ≠ [] := by
        rw [h1]
        exact hne hp
      cases hKs : s2.top_n_count with
      | none => exact MTS.retain_ne_nil_of_none hKs hne2
      | some c =>
        have hc0 : c ≠ 0 := by
          rw [h3] at hKs
          intro h
          exact hK (h ▸ hKs)
        exact MTS.retain_ne_nil hKs (by omega) hne2
    · rw [MTS.retain_state_table, MTS.retain_total_count, h5, h2]
      exact hcnt
    · intro a ha
      rw [MTS.retain_state_table, h5]
      have hsub := MTS.retain_keys_subset E s2 a ha
      rw [h1] at hsub
      exact hlive a hsub
    · rw [MTS.retain_top_n_count, h3]
      exact hK
  unfold MTS.flush
  split_ifs with hd
  · exact hretain _ rfl rfl rfl (StateTable.sorted_applyBuffer _ hscom)
      (StateTable.iterList_commit _)
  · exact hretain _ rfl rfl rfl hscom rfl

theorem reachInv_applyOp {E : TopNType} {s : MTS} {o : Op} (hinv : ReachInv E s)
    (hv : validOpB E s o = true) :
    ∃ s', applyOpM E s o = some s' ∧ ReachInv E s' := by
  cases o with
  | ins k v =>
    have hvk : encodeKey E k ∉ keysA (StateTable.iterList s.state_table) := by
      simpa [validOpB, liveB] using hv
    obtain ⟨s', h1, h2⟩ := reachInv_insert hinv k v hvk
    exact ⟨s', by simpa [applyOpM] using h1, h2⟩
  | del k v =>
    have hvk : encodeKey E k ∈ keysA (StateTable.iterList s.state_table) ∧
        0 < s.total_count := by
      simpa [validOpB, liveB] using hv
    exact ⟨_, rfl, reachInv_delete hinv k v hvk.1 hvk.2⟩
  | flushOp => exact ⟨_, rfl, reachInv_flush hinv⟩

theorem reachInv_run (E : TopNType) :
    ∀ (ops : List Op) (s : MTS), ReachInv E s → validFromB E s ops = true →
      ∃ s', runOps E s ops = some s' ∧ ReachInv E s' := by
  intro ops
  induction ops with
  | nil =>
    intro s hinv _
    exact ⟨s, rfl, hinv⟩
  | cons o os ih =>
    intro s hinv hv
    simp only [validFromB, Bool.and_eq_true] at hv
    obtain ⟨s1, h1, hinv1⟩ := reachInv_applyOp hinv hv.1
    have hv2 : validFromB E s1 os = true := by
      have hh := hv.2
      rw [h1] at hh
      exact hh
    obtain ⟨s', h2, hinv'⟩ := ih s1 hinv1 hv2
    refine ⟨s', ?_, hinv'⟩
    simp [runOps, h1, h2]

/-! ## Claim theorems -/

/-- C1 (code bug): the claim states that `fill_in_cache` decodes every
visited primary key under the direction of `E` (reversed deserializer for
`E = MAX`), so the cached keys equal the OrderedRows originally inserted.
The code uses the forward deserializer unconditionally
(`top_n_state.rs:325`): after inserting the row with key `5` under
`E = MAX` and flushing, recovery caches the raw reversed bytes `-5` instead
of the key `5`, while the direction-aware decoder (used by `scan_and_merge`)
would recover `5`.  -/
theorem c1_fill_in_cache_forward_decode :
    (MTS.insert .max 5 50 0 (MTS.new (some 2) 0 ⟨[], []⟩)).map (fun s1 =>
        (MTS.fill_in_cache .max 0
          (MTS.new (some 2) (MTS.flush .max 0 s1).total_count
            (MTS.flush .max 0 s1).state_table)).top_n) = some [(-5, 50)] ∧
    ([((-5 : Int), (50 : Int))] ≠ [(5, 50)]) ∧
    deserializePk .max (encodeKey .max 5) = 5 := by
  refine ⟨by decide, by decide, by decide⟩

/-- C6 (code bug): the claim (P5, crash-recovery fidelity) states that after
`flush(e)`, a fresh MTS over the same partition with the same `total_count`
followed by `fill_in_cache(e)` has the same `top_element`.  Because
`fill_in_cache` decodes with the forward deserializer even for `E = MAX`,
recovery produces byte-inverted keys: after inserting keys 1, 2, 3 under
`E = MAX` with cap 2 and flushing, the original top element is `(3, 30)` but
the recovered one is `(-2, 20)`.  The repository's own test
(`top_n_state.rs:497`–`513`) asserts the two are equal. -/
theorem c6_recovery_divergence :
    ((MTS.insert .max 1 10 0 (MTS.new (some 2) 0 ⟨[], []⟩)).bind (fun s =>
      (MTS.insert .max 2 20 0 s).bind (fun s =>
      (MTS.insert .max 3 30 0 s).map (fun s =>
        (MTS.top_element .max (MTS.flush .max 0 s),
         MTS.top_element .max (MTS.fill_in_cache .max 0
           (MTS.new (some 2) (MTS.flush .max 0 s).total_count
             (MTS.flush .max 0 s).state_table))))))) =
      some (some (3, 30), some (-2, 20)) ∧
    (some ((3 : Int), (30 : Int)) ≠ some ((-2 : Int), (20 : Int))) := by
  refine ⟨by decide, by decide⟩

/-- C2 (counterexample): the claim states that after any public call
returns, the cache holds at most `K` entries.  `insert` does not enforce the
cap: three inserts into a fresh MTS with `K = 2` leave three cached entries
(the repository's own test asserts the same at `top_n_state.rs:488`). -/
theorem c2_counterexample :
    ((MTS.insert .min 1 10 0 (MTS.new (some 2) 0 ⟨[], []⟩)).bind (fun s =>
      (MTS.insert .min 2 20 0 s).bind (fun s =>
      (MTS.insert .min 3 30 0 s).map (fun s => s.top_n.length)))) = some 3 ∧
    ¬ (3 ≤ 2) := by
  refine ⟨by decide, by decide⟩

/-- C2 (amended): the cap is enforced at the retention points only:
immediately after `flush`, after a `fill_in_cache` that starts from an empty
cache (with `K ≥ 1`), and after a `delete` whose refill branch runs; `insert`
(and a `delete` that does not refill) may leave the cache above `K` until the
next retention point. -/
theorem c2_retention_points (E : TopNType) (e : Nat) (s : MTS) (c : Nat)
    (hK : s.top_n_count = some c) :
    (MTS.flush E e s).top_n.length ≤ c ∧
    (1 ≤ c → s.top_n = [] → (MTS.fill_in_cache E e s).top_n.length ≤ c) ∧
    (∀ k v, removeA k s.top_n = [] → 0 < s.total_count - 1 →
      (MTS.delete E k v e s).1.top_n.length ≤ c) := by
  refine ⟨?_, ?_, ?_⟩
  · unfold MTS.flush
    split_ifs with hd
    · exact MTS.retain_length_le_cap hK
    · exact MTS.retain_length_le_cap hK
  · intro hc hempty
    have hfe : (MTS.fill_in_cache E e s).top_n =
        MTS.fillLoop s.top_n_count (StateTable.iterList s.state_table) s.top_n := rfl
    rw [hfe, hK, hempty]
    exact MTS.fillLoop_le_cap _ _ (by simpa using hc)
  · intro k v hrem hpos
    have hcond : (MTS.deleteMid E k v s).top_n.isEmpty ∧
        0 < (MTS.deleteMid E k v s).total_count := by
      constructor
      · simp [MTS.deleteMid, hrem]
      · exact hpos
    have hdel : (MTS.delete E k v e s).1 =
        MTS.retain_top_n E (MTS.scan_and_merge E e (MTS.deleteMid E k v s)) := by
      simp [MTS.delete, hcond]
    rw [hdel]
    exact MTS.retain_length_le_cap hK

/-- Witness for C2 (amended) at a concrete over-full cache with `K = 2`. -/
theorem c2_retention_points_witness :
    (MTS.flush .min 0
      ⟨[(1, 10), (2, 20), (3, 30)], ⟨[], []⟩, 3, some 2⟩).top_n.length ≤ 2 :=
  (c2_retention_points .min 0 ⟨[(1, 10), (2, 20), (3, 30)], ⟨[], []⟩, 3, some 2⟩ 2
    rfl).1

/-- C9: `retain_top_n` evicts the bottom entry (last for `E = MIN`, first for
`E = MAX`) while the cache exceeds the bound, and modifies only the in-memory
cache: the state table (delta and committed contents alike) and
`total_count` are unchanged. -/
theorem c9_retain_top_n_spec (E : TopNType) (s : MTS) :
    (MTS.retain_top_n E s).state_table = s.state_table ∧
    (MTS.retain_top_n E s).total_count = s.total_count ∧
    (MTS.retain_top_n E s).top_n_count = s.top_n_count ∧
    (MTS.retain_top_n E s).top_n =
      (match s.top_n_count with
       | none => s.top_n
       | some c =>
         match E with
         | .min => s.top_n.take c
         | .max => s.top_n.drop (s.top_n.length - c)) :=
  ⟨MTS.retain_state_table E s, MTS.retain_total_count E s,
    MTS.retain_top_n_count E s, by rw [MTS.retain_top_n_eq]⟩

/-- C7: `flush` commits exactly when the state table is dirty — when clean it
only enforces retention (the state table is untouched), when dirty it commits
and then enforces retention — and afterwards the state table is never
dirty. -/
theorem c7_flush_spec (E : TopNType) (e : Nat) (s : MTS) :
    MTS.flush E e s =
      MTS.retain_top_n E
        { s with state_table :=
            if StateTable.isDirty s.state_table then StateTable.commit s.state_table
            else s.state_table } ∧
    StateTable.isDirty (MTS.flush E e s).state_table = false := by
  constructor
  · unfold MTS.flush
    split_ifs with hd
    · rfl
    · rfl
  · unfold MTS.flush
    split_ifs with hd
    · rw [MTS.retain_state_table]
      rfl
    · rw [MTS.retain_state_table]
      simpa using hd

/-- C10: whenever `total_count > cache.len()`, `insert` unconditionally
unwraps `bottom_element()`; under the precondition that a positive
`total_count` implies a non-empty cache the panic branch is unreachable
(`insert` returns a state), while calling `insert` with an empty cache and
positive `total_count` panics. -/
theorem c10_insert_panic (E : TopNType) (k : Int) (v : Row) (e : Nat) (s : MTS) :
    ((0 < s.total_count → s.top_n ≠ []) → (MTS.insert E k v e s).isSome) ∧
    (s.top_n = [] → 0 < s.total_count → MTS.insert E k v e s = none) := by
  constructor
  · intro hpre
    by_cases hst : s.top_n.length < s.total_count
    · have hne : s.top_n ≠ [] := hpre (by omega)
      obtain ⟨⟨bk, bv⟩, hb⟩ := MTS.bottom_element_isSome (by omega) hne
      rw [MTS.insert_of_storage k v e hst hb]
      rfl
    · rw [MTS.insert_of_not_storage k v e hst]
      rfl
  · intro hemp hpos
    have hst : s.top_n.length < s.total_count := by
      rw [hemp]
      simpa using hpos
    have hb : MTS.bottom_element E s = none := by
      rw [MTS.bottom_element_of_pos (by omega)]
      cases E <;> simp [hemp]
    exact MTS.insert_of_storage_nil k v e hst hb

/-- Witness for C10: the panic-free branch on a fresh empty MTS, and the
panicking branch on a state constructed with a positive initial
`total_count` before any `fill_in_cache`. -/
theorem c10_insert_panic_witness :
    (MTS.insert .min 1 10 0 (MTS.new (some 2) 0 ⟨[], []⟩)).isSome ∧
    MTS.insert .min 1 10 0 (MTS.new (some 2) 3 ⟨[], []⟩) = none :=
  ⟨(c10_insert_panic .min 1 10 0 (MTS.new (some 2) 0 ⟨[], []⟩)).1 (by decide),
   (c10_insert_panic .min 1 10 0 (MTS.new (some 2) 3 ⟨[], []⟩)).2 rfl (by decide)⟩

/-- C3: a successful `insert(key, value)` always records the write in the
state table; the pair additionally goes into the cache exactly when
`must_flush_only` is false, where `must_flush_only` is false when
`total_count = cache.len()` and otherwise compares the key against the
far-from-`E` end of the cache; `total_count` grows by exactly one; and the
cap `K` is not enforced (the new cache is the old one, possibly with the one
pair added — never trimmed). -/
theorem c3_insert_spec (E : TopNType) (k : Int) (v : Row) (e : Nat)
    (s s' : MTS) (hle : s.top_n.length ≤ s.total_count)
    (hins : MTS.insert E k v e s = some s') :
    s'.state_table = StateTable.insert (encodeKey E k) v s.state_table ∧
    s'.total_count = s.total_count + 1 ∧
    s'.top_n = (if mustFlushOnly E k s then s.top_n else insertA k v s.top_n) ∧
    s'.top_n_count = s.top_n_count := by
  by_cases hst : s.top_n.length < s.total_count
  · have hpos : s.total_count ≠ 0 := by omega
    cases hb : MTS.bottom_element E s with
    | none =>
      rw [MTS.insert_of_storage_nil k v e hst hb] at hins
      exact absurd hins (by simp)
    | some p =>
      obtain ⟨bk, bv⟩ := p
      rw [MTS.insert_of_storage k v e hst hb] at hins
      obtain rfl := Option.some.inj hins
      refine ⟨rfl, rfl, ?_, rfl⟩
      have hne : ¬ s.total_count = s.top_n.length := by omega
      rw [MTS.bottom_element_of_pos hpos] at hb
      unfold mustFlushOnly
      rw [if_neg hne, hb]
  · rw [MTS.insert_of_not_storage k v e hst] at hins
    obtain rfl := Option.some.inj hins
    refine ⟨rfl, rfl, ?_, rfl⟩
    have heq : s.total_count = s.top_n.length := by omega
    unfold mustFlushOnly
    rw [if_pos heq]
    rfl

/-- Witness for C3: inserting key 1 into a fresh MTS with `K = 2` grows
`total_count` from 0 to 1. -/
theorem c3_insert_spec_witness :
    (⟨[(1, 10)], ⟨[], [(1, RowOp.ins 10)]⟩, 1, some 2⟩ : MTS).total_count =
      (MTS.new (some 2) 0 ⟨[], []⟩).total_count + 1 :=
  (c3_insert_spec .min 1 10 0 (MTS.new (some 2) 0 ⟨[], []⟩)
    ⟨[(1, 10)], ⟨[], [(1, RowOp.ins 10)]⟩, 1, some 2⟩ (by decide) (by decide)).2.1

/-- C5: `delete(key, value, epoch)` removes the key from the cache returning
the previously cached value (`Ok(None)` when the key was not cached), records
a tombstone in the state table, decrements `total_count` by exactly one, and
when the cache drains while elements remain it is refilled via
`scan_and_merge` followed by retention enforcement. -/
theorem c5_delete_spec (E : TopNType) (k : Int) (v : Row) (e : Nat) (s : MTS)
    (hpos : 0 < s.total_count) :
    (MTS.delete E k v e s).2 = lookupA k s.top_n ∧
    (MTS.delete E k v e s).1.state_table =
      StateTable.delete (encodeKey E k) v s.state_table ∧
    (MTS.delete E k v e s).1.total_count + 1 = s.total_count ∧
    ((removeA k s.top_n = [] ∧ 0 < s.total_count - 1) →
      (MTS.delete E k v e s).1 =
        MTS.retain_top_n E (MTS.scan_and_merge E e (MTS.deleteMid E k v s))) ∧
    (¬ (removeA k s.top_n = [] ∧ 0 < s.total_count - 1) →
      (MTS.delete E k v e s).1.top_n = removeA k s.top_n) := by
  have hcondiff : ((MTS.deleteMid E k v s).top_n.isEmpty ∧
      0 < (MTS.deleteMid E k v s).total_count) ↔
      (removeA k s.top_n = [] ∧ 0 < s.total_count - 1) := by
    constructor
    · intro h
      exact ⟨List.isEmpty_iff.mp h.1, h.2⟩
    · intro h
      exact ⟨List.isEmpty_iff.mpr h.1, h.2⟩
  by_cases hcond : (MTS.deleteMid E k v s).top_n.isEmpty ∧
      0 < (MTS.deleteMid E k v s).total_count
  · have hdel : (MTS.delete E k v e s).1 =
        MTS.retain_top_n E (MTS.scan_and_merge E e (MTS.deleteMid E k v s)) := by
      simp [MTS.delete, hcond]
    refine ⟨rfl, ?_, ?_, fun _ => hdel, fun hn => absurd (hcondiff.mp hcond) hn⟩
    · rw [hdel, MTS.retain_state_table]
      rfl
    · rw [hdel, MTS.retain_total_count]
      have h2 := hcond.2
      have hmid : (MTS.deleteMid E k v s).total_count = s.total_count - 1 := rfl
      have hsc : (MTS.scan_and_merge E e (MTS.deleteMid E k v s)).total_count =
          s.total_count - 1 := hmid
      omega
  · have hdel : (MTS.delete E k v e s).1 = MTS.deleteMid E k v s := by
      simp only [MTS.delete]
      rw [if_neg hcond]
    refine ⟨rfl, ?_, ?_, fun hc => absurd (hcondiff.mpr hc) hcond, fun _ => ?_⟩
    · rw [hdel]
      rfl
    · rw [hdel]
      have hmid : (MTS.deleteMid E k v s).total_count = s.total_count - 1 := rfl
      omega
    · rw [hdel]
      rfl

/-- Witness for C5: deleting the only cached key of a singleton MTS. -/
theorem c5_delete_spec_witness :
    (MTS.delete .min 1 10 0 (⟨[(1, 10)], ⟨[], []⟩, 1, some 2⟩ : MTS)).2 =
      lookupA 1 [(1, 10)] :=
  (c5_delete_spec .min 1 10 0 ⟨[(1, 10)], ⟨[], []⟩, 1, some 2⟩ (by decide)).1

/-- C8: `pop_top_element` returns `Ok(None)` when `total_count = 0`;
otherwise it takes the `E`-extreme `(key, value)` of the cache, applies
`delete` on it (whose refill logic runs as part of `delete`), and returns the
removed pair. -/
theorem c8_pop_top_element_spec (E : TopNType) (e : Nat) (s : MTS)
    (hs : SortedA s.top_n) :
    (s.total_count = 0 → MTS.pop_top_element E e s = some (s, none)) ∧
    (0 < s.total_count → s.top_n ≠ [] →
      ∃ k v, MTS.top_element E s = some (k, v) ∧
        MTS.pop_top_element E e s = some ((MTS.delete E k v e s).1, some (k, v))) := by
  constructor
  · intro h0
    simp [MTS.pop_top_element, h0]
  · intro hpos hne
    have h0 : ¬ s.total_count = 0 := by omega
    cases E with
    | min =>
      cases hh : s.top_n.head? with
      | none => exact absurd (List.head?_eq_none_iff.mp hh) hne
      | some p =>
        obtain ⟨k, v⟩ := p
        have hprev : (MTS.delete .min k v e s).2 = some v := lookupA_head hh
        refine ⟨k, v, ?_, ?_⟩
        · simp [MTS.top_element, h0, hh]
        · simp only [MTS.pop_top_element, if_neg h0, hh, hprev]
    | max =>
      cases hh : s.top_n.getLast? with
      | none => exact absurd (List.getLast?_eq_none_iff.mp hh) hne
      | some p =>
        obtain ⟨k, v⟩ := p
        have hprev : (MTS.delete .max k v e s).2 = some v := lookupA_getLast hs hh
        refine ⟨k, v, ?_, ?_⟩
        · simp [MTS.top_element, h0, hh]
        · simp only [MTS.pop_top_element, if_neg h0, hh, hprev]

/-- Witness for C8: popping from a singleton MTS removes its only element. -/
theorem c8_pop_top_element_spec_witness :
    ∃ k v, MTS.top_element .min (⟨[(1, 10)], ⟨[], []⟩, 1, some 2⟩ : MTS) =
        some (k, v) ∧
      MTS.pop_top_element .min 0 (⟨[(1, 10)], ⟨[], []⟩, 1, some 2⟩ : MTS) =
        some ((MTS.delete .min k v 0
          (⟨[(1, 10)], ⟨[], []⟩, 1, some 2⟩ : MTS)).1, some (k, v)) :=
  (c8_pop_top_element_spec .min 0 ⟨[(1, 10)], ⟨[], []⟩, 1, some 2⟩
    (by decide)).2 (by decide) (by decide)

/-- C4 (counterexample): the claim quantifies over sequences that avoid
duplicate live keys and never delete at `total_count = 0`.  Two such
sequences still break the invariant: (i) deleting a key that was never
inserted (which the spec itself calls a benign `Ok(None)` NotFound) leaves
`cache.len() = 1 > 0 = total_count`; (ii) with cap `K = 0`, two inserts and a
flush leave an empty cache with `total_count = 2 > 0`. -/
theorem c4_counterexample :
    ((runOps .min (MTS.new none 0 ⟨[], []⟩) [.ins 1 10, .del 2 0]).map
        (fun s => (s.top_n.length, s.total_count)) = some (1, 0) ∧
      ¬ (1 ≤ 0)) ∧
    ((runOps .min (MTS.new (some 0) 0 ⟨[], []⟩)
          [.ins 1 10, .ins 2 20, .flushOp]).map
        (fun s => (s.top_n.isEmpty, s.total_count)) = some (true, 2) ∧
      (0 : Nat) < 2) := by
  refine ⟨⟨by decide, by decide⟩, ⟨by decide, by decide⟩⟩

/-- C4 (amended): for every sequence of `insert`/`delete`/`flush` calls that
is valid in the strengthened sense — inserts never duplicate a live key and
deletes target only live keys — applied from a freshly constructed MTS whose
cap is unset or positive, every call returns (no panic) and afterwards
`cache.len() ≤ total_count`, and a positive `total_count` implies a non-empty
cache. -/
theorem c4_invariant_valid_sequences (E : TopNType) (cOpt : Option Nat)
    (ops : List Op) (hc : cOpt ≠ some 0)
    (hv : validFromB E (MTS.new cOpt 0 ⟨[], []⟩) ops = true) :
    ∃ s', runOps E (MTS.new cOpt 0 ⟨[], []⟩) ops = some s' ∧
      s'.top_n.length ≤ s'.total_count ∧
      (0 < s'.total_count → s'.top_n ≠ []) := by
  have hinit : ReachInv E (MTS.new cOpt 0 ⟨[], []⟩) := by
    refine ⟨sortedA_nil, sortedA_nil, le_rfl, ?_, rfl, ?_, hc⟩
    · intro h
      have hz : (MTS.new cOpt 0 ⟨[], []⟩).total_count = 0 := rfl
      omega
    · intro a ha
      simp [MTS.new, StateTable.iterList, StateTable.applyBuffer] at ha
  obtain ⟨s', h1, hinv⟩ := reachInv_run E ops _ hinit hv
  exact ⟨s', h1, hinv.2.2.1, hinv.2.2.2.1⟩

/-- Witness for C4 (amended): two inserts, a flush and a live delete with
cap 2. -/
theorem c4_invariant_valid_sequences_witness :
    ∃ s', runOps .min (MTS.new (some 2) 0 ⟨[], []⟩)
        [.ins 1 10, .ins 2 20, .flushOp, .del 1 0] = some s' ∧
      s'.top_n.length ≤ s'.total_count ∧
      (0 < s'.total_count → s'.top_n ≠ []) :=
  c4_invariant_valid_sequences .min (some 2)
    [.ins 1 10, .ins 2 20, .flushOp, .del 1 0] (by decide) (by decide)
